import Mathlib

/-
Verification development for the translategemma-srt batching/translation
engine.  The definitions below are a shallow embedding of the Python
sources: `main.py` (the `translate` client) and `translate_srt.py`
(the `translate_srt` and `translate_plain_text` engine functions).
File reading/writing, logging destinations and the tqdm progress bar are
side effects outside the data path; the embedding records the observable
data: the produced unit sequence, the list of backend requests, the
progress events and the error log lines.
-/

namespace TGemma

/-- Character class used by Python `str.strip()`; modelled by `Char.isWhitespace`. -/
def wsp (c : Char) : Bool := c.isWhitespace

/-- Model of Python `str.strip()` on a character list: drop whitespace from
both ends. -/
def stripList (l : List Char) : List Char :=
  ((l.dropWhile wsp).reverse.dropWhile wsp).reverse

/-- Model of Python `str.strip()`. -/
def pyStrip (s : String) : String := String.mk (stripList s.data)

/-- Boolean prefix test on character lists. -/
def isPrefixChars : List Char → List Char → Bool
  | [], _ => true
  | _ :: _, [] => false
  | a :: as, b :: bs => a == b && isPrefixChars as bs

/-- Boolean substring test on character lists, model of Python `in` on strings. -/
def containsSub (needle : List Char) : List Char → Bool
  | [] => needle.isEmpty
  | b :: bs => isPrefixChars needle (b :: bs) || containsSub needle bs

/-- Model of Python `needle in hay` for strings. -/
def containsStr (needle hay : String) : Bool := containsSub needle.data hay.data

/-- Model of Python `str.split(chr)` specialised to one separator character:
splits at every newline, keeping empty segments. -/
def splitNl : List Char → List (List Char)
  | [] => [[]]
  | c :: rest =>
    if c == '\n' then [] :: splitNl rest
    else
      match splitNl rest with
      | [] => [[c]]
      | h :: t => (c :: h) :: t

/-- Result type of `main.translate` as the engine sees it: a plain string
(error marker or single-line answer) or a list of lines. -/
inductive TransResult where
  | str (s : String)
  | list (l : List String)

/-- The response of `main.translate` lines 64-68: strip the raw model output
and split it on newlines. -/
def splitResp (raw : String) : List String :=
  (splitNl (pyStrip raw).data).map String.mk

/-- Lines 68-74 of `main.py`: on a line-count mismatch between response and
request, whitespace-only lines are filtered out; otherwise the split is
returned unchanged. -/
def alignResp (text : List String) (raw : String) : List String :=
  if (splitResp raw).length ≠ text.length then
    (splitResp raw).filter (fun line => pyStrip line != "")
  else splitResp raw

/-- Lines 76-79 of `main.py`: when the target language mentions Traditional
Chinese, every output line passes through the opencc converter `conv`
(an external library, kept abstract). -/
def applyTrad (conv : String → String) (target_lang : String) (lines : List String) : List String :=
  if containsStr "Traditional Chinese" target_lang then lines.map conv else lines

/-- Model of `main.translate` on list input (the only form the engine uses).
`oracle` is the behaviour of the ollama backend for this call: `Except.error e`
models a raised exception with message `e`, `Except.ok raw` the raw response
content.  Lines 57-90 of `main.py`. -/
def translate (oracle : Except String String) (conv : String → String)
    (target_lang : String) (text : List String) : TransResult :=
  match oracle with
  | Except.error e => TransResult.str ("Error during translation: " ++ e)
  | Except.ok raw => TransResult.list (applyTrad conv target_lang (alignResp text raw))

/-- A parsed SRT subtitle as produced by the srt library: index, timing
(start and end, abstracted to numbers) and text content. -/
structure Subtitle where
  index : Nat
  start : Nat
  end_ : Nat
  content : String

/-- Lines 93-96 of `translate_srt.py`: write the translated texts back into
the batch position by position; a unit beyond the end of the text list keeps
its content. -/
def writeBatch : List Subtitle → List String → List Subtitle
  | [], _ => []
  | s :: rest, [] => s :: writeBatch rest []
  | s :: rest, t :: ts => { s with content := t } :: writeBatch rest ts

/-- Lines 90-91 of `translate_srt.py`: pad a result list with empty strings up
to the batch length. -/
def padTo (m : Nat) (l : List String) : List String :=
  l ++ List.replicate (m - l.length) ""

/-- Fuel-driven chunking; `chunksF k fuel l` with `l.length ≤ fuel` and
`1 ≤ k` splits `l` into contiguous chunks of `k` (last one possibly
shorter). -/
def chunksF (k : Nat) : Nat → List α → List (List α)
  | 0, _ => []
  | _, [] => []
  | fuel + 1, a :: l => ((a :: l).take k) :: chunksF k fuel ((a :: l).drop k)

/-- Model of the batching loop header `range(0, len(xs), batch_size)` with
slices `xs[i : i + batch_size]`. -/
def chunks (k : Nat) (l : List α) : List (List α) := chunksF k l.length l

/-- Lines 81-87 of `translate_srt.py` (same shape at lines 182-187): interpret
the value returned by `translate`.  A string containing "Error" is the error
marker: log it and fall back to the original (stripped) texts; any other
string becomes a one-element list; a list passes through.  Returns the text
list together with the optional log line. -/
def handleResult (texts : List String) (res : TransResult) : List String × Option String :=
  match res with
  | TransResult.str s =>
    if containsStr "Error" s then (texts, some ("Batch error: " ++ s))
    else ([s], none)
  | TransResult.list l => (l, none)

/-- Observable outcome of the SRT engine loop: the rebuilt subtitle list, the
backend requests issued, the progress events reported and the error log
lines. -/
structure SrtAcc where
  newSubs : List Subtitle
  calls : List (List String)
  events : List (Nat × Nat)
  logs : List String

/-- The loop body of `translate_srt` (lines 62-100) over the list of batches.
`prog` is `current_progress`, `ncalls` numbers the backend calls so the
backend may behave differently on each call. -/
def srtGo (backend : Nat → List String → TransResult) (total : Nat) :
    List (List Subtitle) → Nat → Nat → SrtAcc
  | [], _, _ => ⟨[], [], [], []⟩
  | batch :: rest, prog, ncalls =>
    let texts := batch.map (fun s => pyStrip s.content)
    if texts.all (fun t => t == "") then
      let r := srtGo backend total rest (prog + batch.length) ncalls
      ⟨batch ++ r.newSubs, r.calls, (prog + batch.length, total) :: r.events, r.logs⟩
    else
      let hr := handleResult texts (backend ncalls texts)
      let r := srtGo backend total rest (prog + batch.length) (ncalls + 1)
      ⟨writeBatch batch (padTo batch.length hr.1) ++ r.newSubs,
       texts :: r.calls,
       (prog + batch.length, total) :: r.events,
       (match hr.2 with | some m => m :: r.logs | none => r.logs)⟩

/-- The pure core of `translate_srt` (lines 58-100): batch the full subtitle
list by `batch_size` and run the loop. -/
def translate_srt (backend : Nat → List String → TransResult) (batch_size : Nat)
    (subs : List Subtitle) : SrtAcc :=
  srtGo backend subs.length (chunks batch_size subs) 0 0

/-- Sequential renumbering starting at `n`. -/
def reindex (n : Nat) : List Subtitle → List Subtitle
  | [] => []
  | s :: rest => { s with index := n } :: reindex (n + 1) rest

/-- Modelled from the spec: the srt library function `srt.compose` used at
line 114 of `translate_srt.py` is not part of this repository; per the spec
it regenerates index numbers sequentially starting at 1 regardless of the
input index values while preserving timing exactly. -/
def compose (subs : List Subtitle) : List Subtitle := reindex 1 subs

/-- Lines 152-156 of `translate_srt.py`: collect `(index, stripped text)` for
every line whose stripped text is non-empty, indices counted from `idx`. -/
def linesToProcessFrom : Nat → List String → List (Nat × String)
  | _, [] => []
  | idx, line :: rest =>
    if pyStrip line = "" then linesToProcessFrom (idx + 1) rest
    else (idx, pyStrip line) :: linesToProcessFrom (idx + 1) rest

/-- The `lines_to_process` list of `translate_plain_text`. -/
def linesToProcess (lines : List String) : List (Nat × String) :=
  linesToProcessFrom 0 lines

/-- Observable outcome of the plain-text engine loop: the translated-lines
map (an association list `index ↦ translated text`), the backend requests,
the progress events and the error log lines. -/
structure PlainAcc where
  tmap : List (Nat × String)
  calls : List (List String)
  events : List (Nat × Nat)
  logs : List String

/-- The loop body of `translate_plain_text` (lines 173-201) over the list of
batches of `(index, text)` pairs. -/
def plainGo (backend : Nat → List String → TransResult) (total : Nat) :
    List (List (Nat × String)) → Nat → Nat → PlainAcc
  | [], _, _ => ⟨[], [], [], []⟩
  | batch :: rest, prog, ncalls =>
    let batch_texts := batch.map Prod.snd
    let hr := handleResult batch_texts (backend ncalls batch_texts)
    let r := plainGo backend total rest (prog + batch.length) (ncalls + 1)
    ⟨(batch.map Prod.fst).zip (padTo batch_texts.length hr.1) ++ r.tmap,
     batch_texts :: r.calls,
     (prog + batch.length, total) :: r.events,
     (match hr.2 with | some m => m :: r.logs | none => r.logs)⟩

/-- Lines 203-209 of `translate_srt.py`: re-emit each original line position;
a translated index gets its mapped text plus a newline, any other line is
kept untouched. -/
def reconstructFrom (tmap : List (Nat × String)) : Nat → List String → List String
  | _, [] => []
  | idx, line :: rest =>
    (match tmap.lookup idx with
     | some t => t ++ "\n"
     | none => line) :: reconstructFrom tmap (idx + 1) rest

/-- Reconstruction of the output file content of `translate_plain_text`. -/
def reconstruct (lines : List String) (tmap : List (Nat × String)) : List String :=
  reconstructFrom tmap 0 lines

/-- The pure core of `translate_plain_text` (lines 150-209): batch the
non-empty lines, run the loop, reconstruct the file. -/
def translate_plain_text (backend : Nat → List String → TransResult)
    (batch_size : Nat) (lines : List String) : PlainAcc × List String :=
  let r := plainGo backend (linesToProcess lines).length
    (chunks batch_size (linesToProcess lines)) 0 0
  (r, reconstruct lines r.tmap)

/-- Cumulative progress events produced from the batch sizes `ms`, starting
from already-processed count `p`, against total `total`. -/
def progEvents (p total : Nat) : List Nat → List (Nat × Nat)
  | [] => []
  | m :: rest => (p + m, total) :: progEvents (p + m) total rest

/-- Number of subtitles whose stripped content is non-empty (the number of
translatable units of an SRT document in the sense of the spec). -/
def nonEmptyCount (subs : List Subtitle) : Nat :=
  (subs.filter (fun s => pyStrip s.content != "")).length

/-- Whether a line carries a trailing newline. -/
def endsWithNL (s : String) : Bool :=
  match s.data.getLast? with
  | some c => c == '\n'
  | none => false

/- Helper lemmas about `pyStrip`. -/

theorem dropWhile_dropWhile (p : α → Bool) (l : List α) :
    List.dropWhile p (List.dropWhile p l) = List.dropWhile p l := by
  induction l with
  | nil => rfl
  | cons a t ih =>
    by_cases h : p a
    · simp [List.dropWhile_cons, h, ih]
    · simp [List.dropWhile_cons, h]

theorem dropWhile_head_false (p : α → Bool) :
    ∀ (l : List α) a t, List.dropWhile p l = a :: t → p a = false := by
  intro l
  induction l with
  | nil => intro a t h; simp at h
  | cons b bs ih =>
    intro a t h
    by_cases hb : p b
    · rw [List.dropWhile_cons, if_pos hb] at h
      exact ih a t h
    · rw [List.dropWhile_cons, if_neg hb] at h
      injection h with h1 h2
      subst h1
      simpa using hb

theorem exists_append_dropWhile (p : α → Bool) (l : List α) :
    ∃ u, l = u ++ List.dropWhile p l := by
  induction l with
  | nil => exact ⟨[], rfl⟩
  | cons a t ih =>
    by_cases h : p a
    · obtain ⟨u, hu⟩ := ih
      refine ⟨a :: u, ?_⟩
      rw [List.dropWhile_cons, if_pos h, List.cons_append]
      exact congrArg (a :: ·) hu
    · exact ⟨[], by rw [List.dropWhile_cons, if_neg h]; rfl⟩

theorem stripList_head_false (l : List Char) :
    ∀ a t, stripList l = a :: t → wsp a = false := by
  intro a t h
  obtain ⟨u, hu⟩ := exists_append_dropWhile wsp (List.dropWhile wsp l).reverse
  have hd : List.dropWhile wsp l = stripList l ++ u.reverse := by
    have h2 := congrArg List.reverse hu
    simpa [stripList, List.reverse_append] using h2
  rw [h] at hd
  exact dropWhile_head_false wsp l a (t ++ u.reverse) (by simpa using hd)

theorem stripList_dropWhile (l : List Char) :
    List.dropWhile wsp (stripList l) = stripList l := by
  cases hm : stripList l with
  | nil => rfl
  | cons a t =>
    have ha := stripList_head_false l a t hm
    rw [List.dropWhile_cons, if_neg (by simp [ha])]

theorem stripList_reverse_dropWhile (l : List Char) :
    List.dropWhile wsp (stripList l).reverse = (stripList l).reverse := by
  have h : (stripList l).reverse = List.dropWhile wsp (List.dropWhile wsp l).reverse := by
    simp [stripList]
  rw [h, dropWhile_dropWhile]

theorem stripList_idem (l : List Char) : stripList (stripList l) = stripList l := by
  show ((List.dropWhile wsp (stripList l)).reverse.dropWhile wsp).reverse = stripList l
  rw [stripList_dropWhile, stripList_reverse_dropWhile, List.reverse_reverse]

theorem stripList_newline (l : List Char) :
    stripList (stripList l ++ ['\n']) = stripList l := by
  cases hm : stripList l with
  | nil => decide
  | cons a t =>
    have ha := stripList_head_false l a t hm
    show ((List.dropWhile wsp ((a :: t) ++ ['\n'])).reverse.dropWhile wsp).reverse = a :: t
    rw [List.cons_append, List.dropWhile_cons, if_neg (by simp [ha]), ← List.cons_append]
    have h2 : ((a :: t) ++ ['\n']).reverse = '\n' :: (a :: t).reverse := by simp
    rw [h2, List.dropWhile_cons, if_pos (by decide), ← hm, stripList_reverse_dropWhile,
      List.reverse_reverse, hm]

theorem pyStrip_idem (s : String) : pyStrip (pyStrip s) = pyStrip s := by
  simp [pyStrip, stripList_idem]

theorem pyStrip_newline (s : String) : pyStrip (pyStrip s ++ "\n") = pyStrip s := by
  show String.mk (stripList ((pyStrip s ++ "\n").data)) = pyStrip s
  have h : (pyStrip s ++ "\n").data = stripList s.data ++ ['\n'] := rfl
  rw [h, stripList_newline]
  rfl

theorem map_pyStrip_strip (b : List Subtitle) :
    ((b.map fun s => pyStrip s.content).map pyStrip) = b.map fun s => pyStrip s.content := by
  induction b with
  | nil => rfl
  | cons s rest ih => simp [pyStrip_idem, ih]

/- Helper lemmas about the substring test. -/

theorem isPrefixChars_append (n : List Char) :
    ∀ h t, isPrefixChars n h = true → isPrefixChars n (h ++ t) = true := by
  induction n with
  | nil => intro h t _; rfl
  | cons a as ih =>
    intro h t hp
    cases h with
    | nil => simp [isPrefixChars] at hp
    | cons b bs =>
      simp only [isPrefixChars, Bool.and_eq_true] at hp ⊢
      exact ⟨hp.1, ih bs t hp.2⟩

theorem containsSub_of_prefix (n : List Char) :
    ∀ h, isPrefixChars n h = true → containsSub n h = true := by
  intro h hp
  cases h with
  | nil =>
    cases n with
    | nil => rfl
    | cons a as => simp [isPrefixChars] at hp
  | cons b bs => simp [containsSub, hp]

theorem containsStr_error (e : String) :
    containsStr "Error" ("Error during translation: " ++ e) = true := by
  show containsSub ("Error".data) (("Error during translation: ").data ++ e.data) = true
  apply containsSub_of_prefix
  apply isPrefixChars_append
  decide

/- Helper lemmas about zip and association lists. -/

theorem zip_proj_fst_snd (l : List (α × β)) :
    (l.map Prod.fst).zip (l.map Prod.snd) = l := by
  induction l with
  | nil => rfl
  | cons p rest ih => simp [ih]

theorem lookup_eq_none_of_not_mem (a : Nat) :
    ∀ (l : List (Nat × String)), a ∉ l.map Prod.fst → List.lookup a l = none := by
  intro l
  induction l with
  | nil => intro _; rfl
  | cons p rest ih =>
    intro h
    obtain ⟨k, v⟩ := p
    simp only [List.map_cons, List.mem_cons, not_or] at h
    have hb : (a == k) = false := by simpa using h.1
    simp [List.lookup, hb, ih h.2]

theorem lookup_of_mem_keys (a : Nat) :
    ∀ (l : List (Nat × String)), a ∈ l.map Prod.fst → ∃ t, List.lookup a l = some t := by
  intro l
  induction l with
  | nil => intro h; simp at h
  | cons p rest ih =>
    intro h
    obtain ⟨k, v⟩ := p
    by_cases hak : a = k
    · subst hak
      exact ⟨v, by simp [List.lookup]⟩
    · simp only [List.map_cons, List.mem_cons] at h
      rcases h with h | h
      · exact absurd h hak
      · obtain ⟨t, ht⟩ := ih h
        have hb : (a == k) = false := by simpa using hak
        exact ⟨t, by simp [List.lookup, hb, ht]⟩

theorem mem_keys_of_lookup (a : Nat) (t : String) :
    ∀ (l : List (Nat × String)), List.lookup a l = some t → a ∈ l.map Prod.fst := by
  intro l
  induction l with
  | nil => intro h; simp [List.lookup] at h
  | cons p rest ih =>
    intro h
    obtain ⟨k, v⟩ := p
    by_cases hak : a = k
    · subst hak; simp
    · have hb : (a == k) = false := by simpa using hak
      simp only [List.lookup, hb] at h
      simp [ih h]

/- Helper lemmas about chunking. -/

theorem chunksF_flatten (k : Nat) (hk : 1 ≤ k) :
    ∀ fuel (l : List α), l.length ≤ fuel → (chunksF k fuel l).flatten = l := by
  intro fuel
  induction fuel with
  | zero =>
    intro l hl
    have h : l = [] := List.eq_nil_of_length_eq_zero (Nat.le_zero.mp hl)
    subst h; rfl
  | succ f ih =>
    intro l hl
    cases l with
    | nil => rfl
    | cons a t =>
      simp only [chunksF, List.flatten_cons]
      simp only [List.length_cons] at hl
      rw [ih ((a :: t).drop k) (by simp only [List.length_drop, List.length_cons]; omega)]
      exact List.take_append_drop k (a :: t)

theorem chunksF_length (k : Nat) (hk : 1 ≤ k) :
    ∀ fuel (l : List α), l.length ≤ fuel →
      (chunksF k fuel l).length = (l.length + k - 1) / k := by
  intro fuel
  induction fuel with
  | zero =>
    intro l hl
    have h : l = [] := List.eq_nil_of_length_eq_zero (Nat.le_zero.mp hl)
    subst h
    simp only [chunksF, List.length_nil]
    rw [Nat.div_eq_of_lt (by omega)]
  | succ f ih =>
    intro l hl
    cases l with
    | nil =>
      simp only [chunksF, List.length_nil]
      rw [Nat.div_eq_of_lt (by omega)]
    | cons a t =>
      simp only [List.length_cons] at hl
      simp only [chunksF, List.length_cons]
      rw [ih ((a :: t).drop k) (by simp only [List.length_drop, List.length_cons]; omega)]
      simp only [List.length_drop, List.length_cons]
      rcases Nat.le_total k (t.length + 1) with h | h
      · have e1 : t.length + 1 - k + k - 1 = t.length := by omega
        have e2 : t.length + 1 + k - 1 = t.length + k := by omega
        rw [e1, e2, Nat.add_div_right _ (by omega)]
      · have e1 : t.length + 1 - k = 0 := by omega
        have e2 : (0 + k - 1 : Nat) / k = 0 := Nat.div_eq_of_lt (by omega)
        have e3 : t.length + 1 + k - 1 = t.length + k := by omega
        rw [e1, e2, e3, Nat.add_div_right _ (by omega), Nat.div_eq_of_lt (by omega)]

theorem chunksF_take_flatten (k : Nat) (hk : 1 ≤ k) :
    ∀ fuel (l : List α) j, l.length ≤ fuel →
      ((chunksF k fuel l).take j).flatten = l.take (j * k) := by
  intro fuel
  induction fuel with
  | zero =>
    intro l j hl
    have h : l = [] := List.eq_nil_of_length_eq_zero (Nat.le_zero.mp hl)
    subst h
    simp [chunksF]
  | succ f ih =>
    intro l j hl
    cases l with
    | nil => simp [chunksF]
    | cons a t =>
      cases j with
      | zero => simp
      | succ i =>
        simp only [chunksF, List.take_succ_cons, List.flatten_cons]
        simp only [List.length_cons] at hl
        rw [ih ((a :: t).drop k) i (by simp only [List.length_drop, List.length_cons]; omega)]
        rw [show (i + 1) * k = k + i * k from by rw [Nat.succ_mul, Nat.add_comm]]
        rw [List.take_add]

theorem chunksF_get? (k : Nat) (hk : 1 ≤ k) :
    ∀ fuel (l : List α) i, l.length ≤ fuel → i < (chunksF k fuel l).length →
      (chunksF k fuel l).get? i = some ((l.drop (i * k)).take k) := by
  intro fuel
  induction fuel with
  | zero =>
    intro l i hl hi
    have h : l = [] := List.eq_nil_of_length_eq_zero (Nat.le_zero.mp hl)
    subst h
    simp [chunksF] at hi
  | succ f ih =>
    intro l i hl hi
    cases l with
    | nil => simp [chunksF] at hi
    | cons a t =>
      cases i with
      | zero => simp [chunksF]
      | succ n =>
        simp only [chunksF, List.length_cons] at hi
        simp only [chunksF, List.get?_cons_succ]
        simp only [List.length_cons] at hl
        rw [ih ((a :: t).drop k) n (by simp only [List.length_drop, List.length_cons]; omega)
          (by omega)]
        rw [List.drop_drop]
        rw [show k + n * k = (n + 1) * k from by rw [Nat.succ_mul, Nat.add_comm]]

theorem chunksF_map (k : Nat) (f : α → β) :
    ∀ fuel (l : List α), chunksF k fuel (l.map f) = (chunksF k fuel l).map (List.map f) := by
  intro fuel
  induction fuel with
  | zero => intro l; cases l <;> rfl
  | succ fu ih =>
    intro l
    cases l with
    | nil => rfl
    | cons a t =>
      simp only [List.map_cons, chunksF]
      rw [← List.map_cons f a t, ← List.map_take, ← List.map_drop, ih]

/- Helper lemmas about padding and batch write-back. -/

theorem padTo_length (m : Nat) (l : List String) :
    (padTo m l).length = l.length + (m - l.length) := by
  simp [padTo]

theorem padTo_self (m : Nat) (l : List String) (h : l.length = m) : padTo m l = l := by
  simp [padTo, h]

theorem padTo_take (m : Nat) (l : List String) :
    (padTo m l).take m = l.take m ++ List.replicate (m - l.length) "" := by
  simp [padTo, List.take_append_eq_append_take, List.take_replicate]

theorem writeBatch_length : ∀ (b : List Subtitle) (ts : List String),
    (writeBatch b ts).length = b.length := by
  intro b
  induction b with
  | nil => intro ts; cases ts <;> rfl
  | cons s rest ih =>
    intro ts
    cases ts with
    | nil => simp [writeBatch, ih]
    | cons t tr => simp [writeBatch, ih]

theorem writeBatch_map_content : ∀ (b : List Subtitle) (ts : List String),
    (writeBatch b ts).map (fun s => s.content)
      = ts.take b.length ++ (b.drop ts.length).map (fun s => s.content) := by
  intro b
  induction b with
  | nil => intro ts; simp [writeBatch]
  | cons s rest ih =>
    intro ts
    cases ts with
    | nil => simp [writeBatch, ih]
    | cons t tr => simp [writeBatch, ih tr]

theorem writeBatch_self (b : List Subtitle) (ts : List String) (h : ts.length = b.length) :
    (writeBatch b ts).map (fun s => s.content) = ts := by
  rw [writeBatch_map_content, ← h, List.take_length]
  have hd : b.drop ts.length = [] := by
    rw [h]; exact List.drop_length b
  rw [hd]
  simp

theorem writeBatch_proj (f : Subtitle → γ) (hf : ∀ s t, f { s with content := t } = f s) :
    ∀ (b : List Subtitle) (ts : List String), (writeBatch b ts).map f = b.map f := by
  intro b
  induction b with
  | nil => intro ts; cases ts <;> rfl
  | cons s rest ih =>
    intro ts
    cases ts with
    | nil => simp [writeBatch, ih]
    | cons t tr => simp [writeBatch, ih tr, hf]

/- Helper lemmas about the progress-event spec. -/

theorem progEvents_length (total : Nat) :
    ∀ (ms : List Nat) (p : Nat), (progEvents p total ms).length = ms.length := by
  intro ms
  induction ms with
  | nil => intro p; rfl
  | cons m rest ih => intro p; simp [progEvents, ih]

theorem progEvents_get? (total : Nat) :
    ∀ (ms : List Nat) (p i : Nat), i < ms.length →
      (progEvents p total ms).get? i = some (p + (ms.take (i + 1)).sum, total) := by
  intro ms
  induction ms with
  | nil => intro p i h; simp at h
  | cons m rest ih =>
    intro p i h
    cases i with
    | zero => simp [progEvents]
    | succ j =>
      simp only [progEvents, List.get?_cons_succ]
      rw [ih (p + m) j (by simpa using h)]
      have e : p + m + (rest.take (j + 1)).sum
          = p + ((m :: rest).take (j + 1 + 1)).sum := by
        simp only [List.take_succ_cons, List.sum_cons]
        omega
      rw [e]

/- Structural lemmas about the SRT engine loop. -/

theorem srtGo_events (backend : Nat → List String → TransResult) (total : Nat) :
    ∀ batches prog ncalls,
      (srtGo backend total batches prog ncalls).events
        = progEvents prog total (batches.map List.length) := by
  intro batches
  induction batches with
  | nil => intro prog ncalls; rfl
  | cons b rest ih =>
    intro prog ncalls
    by_cases hb : ((b.map fun s => pyStrip s.content).all fun t => t == "") = true
    · simp [srtGo, hb, ih, progEvents]
    · simp [srtGo, hb, ih, progEvents]

theorem srtGo_calls (backend : Nat → List String → TransResult) (total : Nat) :
    ∀ batches prog ncalls,
      (srtGo backend total batches prog ncalls).calls
        = (batches.map (fun b => b.map fun s => pyStrip s.content)).filter
            (fun ts => !(ts.all fun t => t == "")) := by
  intro batches
  induction batches with
  | nil => intro prog ncalls; rfl
  | cons b rest ih =>
    intro prog ncalls
    by_cases hb : ((b.map fun s => pyStrip s.content).all fun t => t == "") = true
    · simp [srtGo, hb, ih, List.filter_cons]
    · simp [srtGo, hb, ih, List.filter_cons]

theorem srtGo_proj (f : Subtitle → γ) (hf : ∀ s t, f { s with content := t } = f s)
    (backend : Nat → List String → TransResult) (total : Nat) :
    ∀ batches prog ncalls,
      (srtGo backend total batches prog ncalls).newSubs.map f = (batches.flatten).map f := by
  intro batches
  induction batches with
  | nil => intro prog ncalls; rfl
  | cons b rest ih =>
    intro prog ncalls
    by_cases hb : ((b.map fun s => pyStrip s.content).all fun t => t == "") = true
    · simp [srtGo, hb, ih]
    · simp [srtGo, hb, ih, writeBatch_proj f hf]

theorem srtGo_length (backend : Nat → List String → TransResult)
    (total : Nat) (batches : List (List Subtitle)) (prog ncalls : Nat) :
    (srtGo backend total batches prog ncalls).newSubs.length = batches.flatten.length := by
  have h := srtGo_proj (fun _ => (0 : Nat)) (fun _ _ => rfl) backend total batches prog ncalls
  have h2 := congrArg List.length h
  simp only [List.length_map] at h2
  exact h2

theorem srtGo_error (backend : Nat → List String → TransResult) (total : Nat)
    (h : ∀ n req, ∃ s, backend n req = TransResult.str s ∧ containsStr "Error" s = true) :
    ∀ batches prog ncalls,
      (srtGo backend total batches prog ncalls).newSubs.map (fun s => pyStrip s.content)
        = batches.flatten.map (fun s => pyStrip s.content) := by
  intro batches
  induction batches with
  | nil => intro prog ncalls; rfl
  | cons b rest ih =>
    intro prog ncalls
    by_cases hb : ((b.map fun s => pyStrip s.content).all fun t => t == "") = true
    · simp [srtGo, hb, ih]
    · obtain ⟨s, hs, hcs⟩ := h ncalls (b.map fun s => pyStrip s.content)
      have hpad : padTo b.length (b.map fun s => pyStrip s.content)
          = b.map fun s => pyStrip s.content := padTo_self _ _ (by simp)
      have hwb : (writeBatch b (b.map fun s => pyStrip s.content)).map (fun s => s.content)
          = b.map fun s => pyStrip s.content := writeBatch_self _ _ (by simp)
      have hmm : (writeBatch b (b.map fun s => pyStrip s.content)).map (fun s => pyStrip s.content)
          = ((writeBatch b (b.map fun s => pyStrip s.content)).map (fun s => s.content)).map
              pyStrip := by
        rw [List.map_map]; rfl
      simp only [srtGo]
      rw [if_neg hb]
      simp only [hs, handleResult]
      rw [if_pos hcs]
      simp only [List.flatten_cons, List.map_append, ih, hpad]
      rw [hmm, hwb, map_pyStrip_strip]

/- Structural lemmas about the plain-text engine loop. -/

theorem plainGo_calls (backend : Nat → List String → TransResult) (total : Nat) :
    ∀ batches prog ncalls,
      (plainGo backend total batches prog ncalls).calls
        = batches.map (fun b => b.map Prod.snd) := by
  intro batches
  induction batches with
  | nil => intro prog ncalls; rfl
  | cons b rest ih =>
    intro prog ncalls
    simp [plainGo, ih]

theorem plainGo_events (backend : Nat → List String → TransResult) (total : Nat) :
    ∀ batches prog ncalls,
      (plainGo backend total batches prog ncalls).events
        = progEvents prog total (batches.map List.length) := by
  intro batches
  induction batches with
  | nil => intro prog ncalls; rfl
  | cons b rest ih =>
    intro prog ncalls
    simp [plainGo, ih, progEvents]

theorem plainGo_keys (backend : Nat → List String → TransResult) (total : Nat) :
    ∀ batches prog ncalls,
      (plainGo backend total batches prog ncalls).tmap.map Prod.fst
        = batches.flatten.map Prod.fst := by
  intro batches
  induction batches with
  | nil => intro prog ncalls; rfl
  | cons b rest ih =>
    intro prog ncalls
    simp only [plainGo, List.flatten_cons, List.map_append, ih]
    rw [List.map_fst_zip]
    simp only [List.length_map, padTo_length]
    omega

theorem plainGo_error_tmap (backend : Nat → List String → TransResult) (total : Nat)
    (h : ∀ n req, ∃ s, backend n req = TransResult.str s ∧ containsStr "Error" s = true) :
    ∀ batches prog ncalls,
      (plainGo backend total batches prog ncalls).tmap = batches.flatten := by
  intro batches
  induction batches with
  | nil => intro prog ncalls; rfl
  | cons b rest ih =>
    intro prog ncalls
    obtain ⟨s, hs, hcs⟩ := h ncalls (b.map Prod.snd)
    simp only [plainGo, hs, handleResult, hcs, if_true, List.flatten_cons, ih]
    rw [padTo_self _ _ (by simp), zip_proj_fst_snd]

/- Lemmas about identification of translatable lines and reconstruction. -/

theorem ltpFrom_snd_ne : ∀ (lines : List String) (idx : Nat) (p : Nat × String),
    p ∈ linesToProcessFrom idx lines → p.2 ≠ "" := by
  intro lines
  induction lines with
  | nil => intro idx p h; simp [linesToProcessFrom] at h
  | cons line rest ih =>
    intro idx p h
    by_cases hs : pyStrip line = ""
    · rw [linesToProcessFrom, if_pos hs] at h
      exact ih _ _ h
    · rw [linesToProcessFrom, if_neg hs] at h
      rcases List.mem_cons.mp h with h | h
      · rw [h]; exact hs
      · exact ih _ _ h

theorem ltpFrom_lookup_lt : ∀ (lines : List String) (idx j : Nat), j < idx →
    List.lookup j (linesToProcessFrom idx lines) = none := by
  intro lines
  induction lines with
  | nil => intro idx j _; rfl
  | cons line rest ih =>
    intro idx j hj
    by_cases hs : pyStrip line = ""
    · rw [linesToProcessFrom, if_pos hs]
      exact ih (idx + 1) j (by omega)
    · rw [linesToProcessFrom, if_neg hs]
      have hne : (j == idx) = false := by simp; omega
      simp only [List.lookup, hne]
      exact ih (idx + 1) j (by omega)

theorem ltpFrom_lookup : ∀ (lines : List String) (idx d : Nat),
    List.lookup (idx + d) (linesToProcessFrom idx lines)
      = (lines.get? d).bind
          (fun line => if pyStrip line = "" then none else some (pyStrip line)) := by
  intro lines
  induction lines with
  | nil => intro idx d; simp [linesToProcessFrom]
  | cons line rest ih =>
    intro idx d
    cases d with
    | zero =>
      by_cases hs : pyStrip line = ""
      · rw [linesToProcessFrom, if_pos hs]
        simp only [List.get?_cons_zero, Option.some_bind, if_pos hs]
        exact ltpFrom_lookup_lt rest (idx + 1) (idx + 0) (by omega)
      · rw [linesToProcessFrom, if_neg hs]
        have he : ((idx + 0 : Nat) == idx) = true := by simp
        simp [List.lookup, he, hs]
    | succ e =>
      by_cases hs : pyStrip line = ""
      · rw [linesToProcessFrom, if_pos hs]
        rw [show idx + (e + 1) = (idx + 1) + e from by omega, ih (idx + 1) e]
        simp
      · rw [linesToProcessFrom, if_neg hs]
        have hne : ((idx + (e + 1) : Nat) == idx) = false := by simp
        simp only [List.lookup, hne]
        rw [show idx + (e + 1) = (idx + 1) + e from by omega, ih (idx + 1) e]
        simp

theorem ltp_lookup (lines : List String) (d : Nat) :
    List.lookup d (linesToProcess lines)
      = (lines.get? d).bind
          (fun line => if pyStrip line = "" then none else some (pyStrip line)) := by
  have h := ltpFrom_lookup lines 0 d
  simpa using h

theorem reconstructFrom_length (tmap : List (Nat × String)) :
    ∀ (lines : List String) (idx : Nat),
      (reconstructFrom tmap idx lines).length = lines.length := by
  intro lines
  induction lines with
  | nil => intro idx; rfl
  | cons line rest ih => intro idx; simp [reconstructFrom, ih]

theorem reconstructFrom_get? (tmap : List (Nat × String)) :
    ∀ (lines : List String) (idx d : Nat),
      (reconstructFrom tmap idx lines).get? d
        = (lines.get? d).map (fun line =>
            match List.lookup (idx + d) tmap with
            | some t => t ++ "\n"
            | none => line) := by
  intro lines
  induction lines with
  | nil => intro idx d; simp [reconstructFrom]
  | cons line rest ih =>
    intro idx d
    cases d with
    | zero => simp [reconstructFrom]
    | succ e =>
      simp only [reconstructFrom, List.get?_cons_succ]
      rw [ih (idx + 1) e, show (idx + 1) + e = idx + (e + 1) from by omega]

/- Wrappers for `chunks` and remaining helpers. -/

theorem chunks_flatten (k : Nat) (hk : 1 ≤ k) (l : List α) : (chunks k l).flatten = l :=
  chunksF_flatten k hk l.length l le_rfl

theorem chunks_length (k : Nat) (hk : 1 ≤ k) (l : List α) :
    (chunks k l).length = (l.length + k - 1) / k :=
  chunksF_length k hk l.length l le_rfl

theorem chunks_take_flatten (k : Nat) (hk : 1 ≤ k) (l : List α) (j : Nat) :
    ((chunks k l).take j).flatten = l.take (j * k) :=
  chunksF_take_flatten k hk l.length l j le_rfl

theorem reindex_length : ∀ (n : Nat) (l : List Subtitle), (reindex n l).length = l.length := by
  intro n l
  induction l generalizing n with
  | nil => rfl
  | cons s rest ih => simp [reindex, ih]

theorem reindex_proj (f : Subtitle → γ) (hf : ∀ s m, f { s with index := m } = f s) :
    ∀ (n : Nat) (l : List Subtitle), (reindex n l).map f = l.map f := by
  intro n l
  induction l generalizing n with
  | nil => rfl
  | cons s rest ih => simp [reindex, ih, hf]

theorem reindex_index : ∀ (n : Nat) (l : List Subtitle),
    (reindex n l).map (fun s => s.index) = List.range' n l.length := by
  intro n l
  induction l generalizing n with
  | nil => rfl
  | cons s rest ih => simp [reindex, ih, List.range'_succ]

theorem zip_right_take : ∀ (l : List α) (l2 : List β), l.zip l2 = l.zip (l2.take l.length) := by
  intro l
  induction l with
  | nil => intro l2; rfl
  | cons a rest ih =>
    intro l2
    cases l2 with
    | nil => rfl
    | cons b bs => simp [ih bs]

theorem plain_keys (backend : Nat → List String → TransResult) (k : Nat)
    (lines : List String) (hk : 1 ≤ k) :
    (translate_plain_text backend k lines).1.tmap.map Prod.fst
      = (linesToProcess lines).map Prod.fst := by
  simp only [translate_plain_text]
  rw [plainGo_keys, chunks_flatten k hk]

theorem plain_empty_passthrough (backend : Nat → List String → TransResult) (k : Nat)
    (lines : List String) (hk : 1 ≤ k) (d : Nat) (line : String)
    (hl : lines.get? d = some line) (hs : pyStrip line = "") :
    ((translate_plain_text backend k lines).2).get? d = some line := by
  have hnone : List.lookup d (translate_plain_text backend k lines).1.tmap = none := by
    apply lookup_eq_none_of_not_mem
    rw [plain_keys backend k lines hk]
    intro hmem
    obtain ⟨t, ht⟩ := lookup_of_mem_keys d _ hmem
    rw [ltp_lookup, hl] at ht
    simp [hs] at ht
  simp only [translate_plain_text, reconstruct] at hnone ⊢
  rw [reconstructFrom_get?]
  simp [Nat.zero_add, hnone]
  simpa using hl

theorem progEvents_chunks_get? (k : Nat) (hk : 1 ≤ k) (l : List α) (total i : Nat)
    (hi : i < ((chunks k l).map List.length).length) :
    (progEvents 0 total ((chunks k l).map List.length)).get? i
      = some (min ((i + 1) * k) l.length, total) := by
  rw [progEvents_get? total _ 0 i hi]
  have hsum : (((chunks k l).map List.length).take (i + 1)).sum = min ((i + 1) * k) l.length := by
    rw [← List.map_take, ← List.length_flatten, chunks_take_flatten k hk l (i + 1),
      List.length_take]
  rw [Nat.zero_add, hsum]

/- Claim theorems. -/

/-- C1: for every parseable document and every backend behaviour, the output
has exactly as many units as the input: the serialized SRT document has one
block per parsed block, and the plain-text output has one line per input
line. -/
theorem count_invariant (backend : Nat → List String → TransResult) (k : Nat)
    (subs : List Subtitle) (lines : List String) (hk : 1 ≤ k) :
    (compose (translate_srt backend k subs).newSubs).length = subs.length
    ∧ ((translate_plain_text backend k lines).2).length = lines.length := by
  constructor
  · simp only [compose, translate_srt]
    rw [reindex_length, srtGo_length]
    rw [show chunks k subs = chunksF k subs.length subs from rfl]
    rw [chunksF_flatten k hk subs.length subs le_rfl]
  · simp only [translate_plain_text, reconstruct]
    exact reconstructFrom_length _ lines 0

theorem count_invariant_witness :
    (compose (translate_srt (fun _ _ => TransResult.list ["x"]) 1
        [⟨1, 0, 1, "a"⟩]).newSubs).length = 1
    ∧ ((translate_plain_text (fun _ _ => TransResult.list ["x"]) 1 ["hi", ""]).2).length = 2 :=
  count_invariant (fun _ _ => TransResult.list ["x"]) 1 [⟨1, 0, 1, "a"⟩] ["hi", ""] (by decide)

/-- C5: for a batch of m units and a backend result list of length r, the
engine pads the result with empty strings when r is less than m (the last
m minus r units receive empty text) and drops the extra entries when r
exceeds m, writing the j-th consumed result into the j-th unit of the batch,
in both translate_srt and translate_plain_text. -/
theorem pad_truncate_policy (batch : List Subtitle) (pb : List (Nat × String))
    (res : List String) (total p c : Nat) :
    (((batch.map fun s => pyStrip s.content).all fun t => t == "") = false →
      (srtGo (fun _ _ => TransResult.list res) total [batch] p c).newSubs.map
          (fun s => s.content)
        = res.take batch.length ++ List.replicate (batch.length - res.length) "")
    ∧ (plainGo (fun _ _ => TransResult.list res) total [pb] p c).tmap
        = (pb.map Prod.fst).zip
            (res.take pb.length ++ List.replicate (pb.length - res.length) "") := by
  constructor
  · intro hb
    simp only [srtGo]
    rw [if_neg (by simp [hb])]
    simp only [handleResult, List.append_nil]
    rw [writeBatch_map_content, padTo_take]
    have hd : batch.drop (padTo batch.length res).length = [] :=
      List.drop_eq_nil_of_le (by rw [padTo_length]; omega)
    rw [hd]
    simp
  · simp only [plainGo, handleResult, List.append_nil, List.length_map]
    rw [show (pb.map Prod.fst).zip (padTo pb.length res)
        = (pb.map Prod.fst).zip ((padTo pb.length res).take pb.length) from by
      have hz := zip_right_take (pb.map Prod.fst) (padTo pb.length res)
      simpa using hz]
    rw [padTo_take]

theorem pad_truncate_policy_witness :
    (((([⟨1, 0, 1, "a"⟩, ⟨2, 1, 2, "b"⟩, ⟨3, 2, 3, "c"⟩, ⟨4, 3, 4, "d"⟩,
        ⟨5, 4, 5, "e"⟩] : List Subtitle).map fun s => pyStrip s.content).all
          fun t => t == "") = false)
    ∧ (srtGo (fun _ _ => TransResult.list ["x", "y", "z"]) 5
        [[⟨1, 0, 1, "a"⟩, ⟨2, 1, 2, "b"⟩, ⟨3, 2, 3, "c"⟩, ⟨4, 3, 4, "d"⟩, ⟨5, 4, 5, "e"⟩]]
        0 0).newSubs.map (fun s => s.content) = ["x", "y", "z", "", ""] := by
  refine ⟨by decide, ?_⟩
  have h := (pad_truncate_policy
    [⟨1, 0, 1, "a"⟩, ⟨2, 1, 2, "b"⟩, ⟨3, 2, 3, "c"⟩, ⟨4, 3, 4, "d"⟩, ⟨5, 4, 5, "e"⟩]
    [(0, "a")] ["x", "y", "z"] 5 0 0).1 (by decide)
  exact h.trans (by decide)

/-- C7: for every SRT document and every backend behaviour, each unit keeps
its timing (start, end) positionally, the engine mutates only the content
field (indices are untouched too), and serialization regenerates index
numbers sequentially 1, 2, 3, ... regardless of the input index values. -/
theorem timing_preserved_and_reindexed (backend : Nat → List String → TransResult)
    (k : Nat) (subs : List Subtitle) (hk : 1 ≤ k) :
    (compose (translate_srt backend k subs).newSubs).map (fun s => (s.start, s.end_))
        = subs.map (fun s => (s.start, s.end_))
    ∧ (translate_srt backend k subs).newSubs.map (fun s => s.index)
        = subs.map (fun s => s.index)
    ∧ (compose (translate_srt backend k subs).newSubs).map (fun s => s.index)
        = List.range' 1 subs.length := by
  have hflat : (chunks k subs).flatten = subs := chunks_flatten k hk subs
  refine ⟨?_, ?_, ?_⟩
  · simp only [compose, translate_srt]
    rw [reindex_proj (fun s => (s.start, s.end_)) (fun s m => rfl),
      srtGo_proj (fun s => (s.start, s.end_)) (fun s t => rfl), hflat]
  · simp only [translate_srt]
    rw [srtGo_proj (fun s => s.index) (fun s t => rfl), hflat]
  · simp only [compose, translate_srt]
    rw [reindex_index, srtGo_length, hflat]

theorem timing_preserved_and_reindexed_witness :
    (compose (translate_srt (fun _ _ => TransResult.list ["x"]) 1
        [⟨7, 10, 20, "a"⟩, ⟨9, 30, 40, "b"⟩]).newSubs).map (fun s => (s.start, s.end_))
      = [(10, 20), (30, 40)]
    ∧ (compose (translate_srt (fun _ _ => TransResult.list ["x"]) 1
        [⟨7, 10, 20, "a"⟩, ⟨9, 30, 40, "b"⟩]).newSubs).map (fun s => s.index) = [1, 2] := by
  have h := timing_preserved_and_reindexed (fun _ _ => TransResult.list ["x"]) 1
    [⟨7, 10, 20, "a"⟩, ⟨9, 30, 40, "b"⟩] (by decide)
  exact ⟨h.1.trans (by decide), h.2.2.trans (by decide)⟩

/-- C10: for a batch request whose response, after stripping and splitting on
newlines, has a line count different from the request length, the translate
function removes every whitespace-only line before returning; when the counts
match, no filtering happens, so an aligned response may keep empty lines but
a mismatched one never does. -/
theorem mismatch_filtering (req : List String) (raw : String) (conv : String → String)
    (target : String) :
    ((splitResp raw).length ≠ req.length →
      (∀ l ∈ alignResp req raw, pyStrip l ≠ "")
      ∧ alignResp req raw = (splitResp raw).filter (fun line => pyStrip line != ""))
    ∧ ((splitResp raw).length = req.length → alignResp req raw = splitResp raw)
    ∧ translate (Except.ok raw) conv target req
        = TransResult.list (applyTrad conv target (alignResp req raw)) := by
  refine ⟨?_, ?_, rfl⟩
  · intro hne
    have he : alignResp req raw
        = (splitResp raw).filter (fun line => pyStrip line != "") := by
      simp only [alignResp, if_pos hne]
    refine ⟨?_, he⟩
    intro l hl
    rw [he] at hl
    have hp := List.of_mem_filter hl
    simpa using hp
  · intro heq
    simp only [alignResp]
    rw [if_neg (by simp [heq])]

theorem mismatch_filtering_witness :
    ((splitResp "x\n \ny").length ≠ (["a", "b"] : List String).length)
    ∧ alignResp ["a", "b"] "x\n \ny" = ["x", "y"] := by
  refine ⟨by decide, ?_⟩
  have h := (mismatch_filtering ["a", "b"] "x\n \ny" id "t").1 (by decide)
  exact h.2.trans (by decide)

/-- C4: when the backend call raises an exception, translate returns an
error-marker string instead of propagating it, and the engine, on receiving
such a marker, logs it and uses the original untranslated (stripped) texts of
the batch, so no backend failure aborts processing; shown for the SRT loop
body and the plain-text loop body. -/
theorem backend_error_fallback (e : String) (conv : String → String) (target : String)
    (batch : List Subtitle) (pb : List (Nat × String)) (total p c : Nat) :
    (∀ req : List String,
      translate (Except.error e) conv target req
        = TransResult.str ("Error during translation: " ++ e))
    ∧ containsStr "Error" ("Error during translation: " ++ e) = true
    ∧ (((batch.map fun s => pyStrip s.content).all fun t => t == "") = false →
        (srtGo (fun _ req => translate (Except.error e) conv target req) total [batch]
            p c).newSubs.map (fun s => s.content)
          = batch.map (fun s => pyStrip s.content)
        ∧ (srtGo (fun _ req => translate (Except.error e) conv target req) total [batch]
            p c).logs = ["Batch error: Error during translation: " ++ e])
    ∧ (plainGo (fun _ req => translate (Except.error e) conv target req) total [pb]
          p c).tmap = pb
    ∧ (plainGo (fun _ req => translate (Except.error e) conv target req) total [pb]
          p c).logs = ["Batch error: Error during translation: " ++ e] := by
  have hm := containsStr_error e
  refine ⟨fun req => rfl, hm, ?_, ?_, ?_⟩
  · intro hb
    constructor
    · simp only [srtGo]
      rw [if_neg (by simp [hb])]
      simp only [translate, handleResult]
      rw [if_pos hm]
      simp only [List.append_nil]
      rw [padTo_self _ _ (by simp), writeBatch_self _ _ (by simp)]
    · simp only [srtGo]
      rw [if_neg (by simp [hb])]
      simp only [translate, handleResult]
      rw [if_pos hm]
      show ["Batch error: " ++ ("Error during translation: " ++ e)]
        = ["Batch error: Error during translation: " ++ e]
      rw [← String.append_assoc,
        show ("Batch error: " ++ "Error during translation: " : String)
          = "Batch error: Error during translation: " from rfl]
  · simp only [plainGo, translate, handleResult]
    rw [if_pos hm]
    simp only [List.append_nil]
    rw [padTo_self _ _ (by simp), zip_proj_fst_snd]
  · simp only [plainGo, translate, handleResult]
    rw [if_pos hm]
    show ["Batch error: " ++ ("Error during translation: " ++ e)]
      = ["Batch error: Error during translation: " ++ e]
    rw [← String.append_assoc,
      show ("Batch error: " ++ "Error during translation: " : String)
        = "Batch error: Error during translation: " from rfl]

theorem backend_error_fallback_witness :
    ((([⟨1, 0, 1, " a "⟩, ⟨2, 1, 2, "b"⟩] : List Subtitle).map
        fun s => pyStrip s.content).all fun t => t == "") = false
    ∧ translate (Except.error "boom") id "t" ["x"]
        = TransResult.str ("Error during translation: " ++ "boom")
    ∧ (srtGo (fun _ req => translate (Except.error "boom") id "t" req) 2
        [[⟨1, 0, 1, " a "⟩, ⟨2, 1, 2, "b"⟩]] 0 0).newSubs.map (fun s => s.content)
        = ["a", "b"] := by
  have h := backend_error_fallback "boom" id "t" [⟨1, 0, 1, " a "⟩, ⟨2, 1, 2, "b"⟩]
    [(0, "a")] 2 0 0
  refine ⟨by decide, h.1 ["x"], ?_⟩
  exact ((h.2.2.1 (by decide)).1).trans (by decide)

/-- C6: if the backend returns an error marker on every call, the output
document is textually identical to the input document on its translatable
content: the stripped unit texts of the SRT output equal those of the input,
and the reconstructed plain-text file equals the input line by line up to
stripping. -/
theorem fallback_idempotence (backend : Nat → List String → TransResult) (k : Nat)
    (subs : List Subtitle) (lines : List String) (hk : 1 ≤ k)
    (h : ∀ n req, ∃ s, backend n req = TransResult.str s ∧ containsStr "Error" s = true) :
    (translate_srt backend k subs).newSubs.map (fun s => pyStrip s.content)
        = subs.map (fun s => pyStrip s.content)
    ∧ ((translate_plain_text backend k lines).2).map pyStrip = lines.map pyStrip := by
  constructor
  · simp only [translate_srt]
    rw [srtGo_error backend subs.length h, chunks_flatten k hk]
  · simp only [translate_plain_text, reconstruct]
    have ht : (plainGo backend (linesToProcess lines).length
        (chunks k (linesToProcess lines)) 0 0).tmap = linesToProcess lines := by
      rw [plainGo_error_tmap _ _ h, chunks_flatten k hk]
    rw [ht]
    apply List.ext_get?
    intro d
    rw [List.get?_map, List.get?_map, reconstructFrom_get?]
    simp only [Nat.zero_add]
    rw [ltp_lookup]
    cases hl : lines.get? d with
    | none => rfl
    | some line =>
      by_cases hs : pyStrip line = ""
      · simp [hs]
      · simp [hs, pyStrip_newline]

theorem fallback_idempotence_witness :
    (translate_srt (fun _ _ => TransResult.str "Error during translation: boom") 2
        [⟨1, 0, 1, " hi "⟩]).newSubs.map (fun s => pyStrip s.content) = ["hi"]
    ∧ ((translate_plain_text (fun _ _ => TransResult.str "Error during translation: boom") 2
        ["a", " "]).2).map pyStrip = ["a", ""] := by
  have h := fallback_idempotence
    (fun _ _ => TransResult.str "Error during translation: boom") 2
    [⟨1, 0, 1, " hi "⟩] ["a", " "] (by decide)
    (fun n req => ⟨"Error during translation: boom", rfl, by decide⟩)
  exact ⟨h.1.trans (by decide), h.2.trans (by decide)⟩

/-- C2 counterexample: in translate_srt a batch mixing an empty and a
non-empty unit sends the stripped empty text to the backend and overwrites
the empty unit with the backend response, so an empty-after-trimming unit is
both included in a request and changed in the output. -/
theorem empty_unit_policy_counterexample :
    (translate_srt (fun _ _ => TransResult.list ["X", "Y"]) 2
        [⟨1, 0, 1, "a"⟩, ⟨2, 1, 2, " "⟩]).calls = [["a", ""]]
    ∧ pyStrip " " = ""
    ∧ (translate_srt (fun _ _ => TransResult.list ["X", "Y"]) 2
        [⟨1, 0, 1, "a"⟩, ⟨2, 1, 2, " "⟩]).newSubs.map (fun s => s.content) = ["X", "Y"]
    ∧ ("Y" : String) ≠ " " := by
  refine ⟨by decide, by decide, by decide, by decide⟩

/-- C2 amended: in translate_plain_text an empty-after-trimming line is never
part of a request and passes through unchanged; in translate_srt only a batch
whose units are ALL empty after trimming is skipped, and the request list is
exactly the stripped texts of every not-all-empty chunk of the full unit
list, so a mixed batch does send its empty units. -/
theorem empty_unit_policy_amended (backend : Nat → List String → TransResult) (k : Nat)
    (lines : List String) (subs : List Subtitle) (hk : 1 ≤ k) :
    (∀ call ∈ (translate_plain_text backend k lines).1.calls, ∀ t ∈ call, t ≠ "")
    ∧ (∀ d line, lines.get? d = some line → pyStrip line = "" →
        ((translate_plain_text backend k lines).2).get? d = some line)
    ∧ (translate_srt backend k subs).calls
        = ((chunks k subs).map (fun b => b.map fun s => pyStrip s.content)).filter
            (fun ts => !(ts.all fun t => t == "")) := by
  refine ⟨?_, ?_, ?_⟩
  · intro call hc t ht
    simp only [translate_plain_text] at hc
    rw [plainGo_calls] at hc
    obtain ⟨chunk, hchunk, rfl⟩ := List.mem_map.mp hc
    obtain ⟨pr, hpr, rfl⟩ := List.mem_map.mp ht
    have hmem : pr ∈ (chunks k (linesToProcess lines)).flatten :=
      List.mem_flatten.mpr ⟨chunk, hchunk, hpr⟩
    rw [chunks_flatten k hk] at hmem
    exact ltpFrom_snd_ne lines 0 pr hmem
  · intro d line hl hs
    exact plain_empty_passthrough backend k lines hk d line hl hs
  · simp only [translate_srt]
    rw [srtGo_calls]

theorem empty_unit_policy_amended_witness :
    ((translate_plain_text (fun _ _ => TransResult.list ["B"]) 1 [" ", "b"]).2).get? 0
      = some " " := by
  have h := empty_unit_policy_amended (fun _ _ => TransResult.list ["B"]) 1 [" ", "b"] []
    (by decide)
  exact h.2.1 0 " " (by decide) (by decide)

/-- C3 counterexample: with units "a", whitespace, "b" and batch_size 2 there
are n = 2 non-empty units, so the claim predicts ceil(2/2) = 1 call carrying
["a", "b"]; translate_srt instead makes 2 calls and the first carries
["a", ""]. -/
theorem batch_boundary_counterexample :
    (translate_srt (fun _ _ => TransResult.list ["X", "Y"]) 2
        [⟨1, 0, 1, "a"⟩, ⟨2, 1, 2, " "⟩, ⟨3, 2, 3, "b"⟩]).calls = [["a", ""], ["b"]]
    ∧ nonEmptyCount [⟨1, 0, 1, "a"⟩, ⟨2, 1, 2, " "⟩, ⟨3, 2, 3, "b"⟩] = 2
    ∧ (2 + 2 - 1) / 2 = 1
    ∧ ([["a", ""], ["b"]] : List (List String)).length ≠ 1
    ∧ (["a", ""] : List String) ≠ ["a", "b"] := by
  refine ⟨by decide, by decide, by decide, by decide, by decide⟩

/-- C3 amended: translate_plain_text makes exactly ceil(n/k) calls, the i-th
carrying the non-empty stripped texts at positions i*k to min((i+1)*k, n) of
the non-empty subsequence; translate_srt instead chunks the FULL unit list
(empty units included) by k and makes one call per chunk that is not
all-empty, carrying the stripped texts of every unit of that chunk. -/
theorem batch_boundary_amended (backend : Nat → List String → TransResult) (k : Nat)
    (lines : List String) (subs : List Subtitle) (hk : 1 ≤ k) :
    ((translate_plain_text backend k lines).1.calls).length
        = (((linesToProcess lines).map Prod.snd).length + k - 1) / k
    ∧ (∀ i, i < ((translate_plain_text backend k lines).1.calls).length →
        ((translate_plain_text backend k lines).1.calls).get? i
          = some ((((linesToProcess lines).map Prod.snd).drop (i * k)).take k))
    ∧ (translate_srt backend k subs).calls
        = ((chunks k subs).map (fun b => b.map fun s => pyStrip s.content)).filter
            (fun ts => !(ts.all fun t => t == ""))
    ∧ (chunks k subs).length = (subs.length + k - 1) / k := by
  have hcalls : (translate_plain_text backend k lines).1.calls
      = chunksF k (linesToProcess lines).length ((linesToProcess lines).map Prod.snd) := by
    simp only [translate_plain_text]
    rw [plainGo_calls]
    rw [show chunks k (linesToProcess lines)
      = chunksF k (linesToProcess lines).length (linesToProcess lines) from rfl]
    rw [← chunksF_map]
  refine ⟨?_, ?_, ?_, ?_⟩
  · rw [hcalls, chunksF_length k hk _ _ (by simp)]
  · intro i hi
    rw [hcalls] at hi ⊢
    exact chunksF_get? k hk _ _ i (by simp) hi
  · simp only [translate_srt]
    rw [srtGo_calls]
  · exact chunks_length k hk subs

theorem batch_boundary_amended_witness :
    ((translate_plain_text (fun _ _ => TransResult.list ["X", "Y"]) 2
        ["a", "", "b", "c"]).1.calls).length = 2
    ∧ ((translate_plain_text (fun _ _ => TransResult.list ["X", "Y"]) 2
        ["a", "", "b", "c"]).1.calls).get? 1 = some ["c"] := by
  have h := batch_boundary_amended (fun _ _ => TransResult.list ["X", "Y"]) 2
    ["a", "", "b", "c"] [] (by decide)
  refine ⟨h.1.trans (by decide), ?_⟩
  have h2 := h.2.1 1 (by rw [h.1]; decide)
  exact h2.trans (by decide)

/-- C8 counterexample: a final translatable line without a trailing newline
gains one in the output, so the trailing-newline convention of the input is
not preserved for translatable lines. -/
theorem plain_newline_counterexample :
    (translate_plain_text (fun _ _ => TransResult.list ["Hola"]) 1 ["Hello"]).2 = ["Hola\n"]
    ∧ endsWithNL "Hello" = false
    ∧ endsWithNL "Hola\n" = true := by
  refine ⟨by decide, by decide, by decide⟩

/-- C8 amended: the plain-text output has one entry per original line; a
non-unit (whitespace-only after stripping) line appears byte-for-byte as the
original, and a translatable line appears as its mapped text followed by a
newline that is always appended, so a final translatable line lacking a
newline in the input gains one. -/
theorem plain_reconstruction_amended (backend : Nat → List String → TransResult)
    (k : Nat) (lines : List String) (hk : 1 ≤ k) :
    ((translate_plain_text backend k lines).2).length = lines.length
    ∧ (∀ d line, lines.get? d = some line → pyStrip line = "" →
        ((translate_plain_text backend k lines).2).get? d = some line)
    ∧ (∀ d line, lines.get? d = some line → pyStrip line ≠ "" →
        ∃ t, List.lookup d (translate_plain_text backend k lines).1.tmap = some t
          ∧ ((translate_plain_text backend k lines).2).get? d = some (t ++ "\n")) := by
  refine ⟨?_, ?_, ?_⟩
  · simp only [translate_plain_text, reconstruct]
    exact reconstructFrom_length _ lines 0
  · intro d line hl hs
    exact plain_empty_passthrough backend k lines hk d line hl hs
  · intro d line hl hs
    have hmem : d ∈ (translate_plain_text backend k lines).1.tmap.map Prod.fst := by
      rw [plain_keys backend k lines hk]
      have hlk : List.lookup d (linesToProcess lines) = some (pyStrip line) := by
        rw [ltp_lookup, hl]
        simp [hs]
      exact mem_keys_of_lookup d _ _ hlk
    obtain ⟨t, ht⟩ := lookup_of_mem_keys d _ hmem
    refine ⟨t, ht, ?_⟩
    simp only [translate_plain_text, reconstruct] at ht ⊢
    rw [reconstructFrom_get?]
    simp [Nat.zero_add, hl, ht]
    exact ⟨line, by simpa using hl⟩

theorem plain_reconstruction_amended_witness :
    ((translate_plain_text (fun _ _ => TransResult.list ["Hola"]) 1 ["Hello", " "]).2).length
      = 2
    ∧ ((translate_plain_text (fun _ _ => TransResult.list ["Hola"]) 1
        ["Hello", " "]).2).get? 1 = some " " := by
  have h := plain_reconstruction_amended (fun _ _ => TransResult.list ["Hola"]) 1
    ["Hello", " "] (by decide)
  exact ⟨h.1.trans (by decide), h.2.1 1 " " (by decide) (by decide)⟩

/-- C9 counterexample: with one empty and one non-empty unit in one batch,
translate_srt reports (2, 2) although the document has only 1 non-empty
unit, so the reported total is the full unit count, not the non-empty
count the claim states. -/
theorem progress_total_counterexample :
    (translate_srt (fun _ _ => TransResult.list ["X", "Y"]) 2
        [⟨1, 0, 1, " "⟩, ⟨2, 1, 2, "a"⟩]).events = [(2, 2)]
    ∧ nonEmptyCount [⟨1, 0, 1, " "⟩, ⟨2, 1, 2, "a"⟩] = 1
    ∧ (2 : Nat) ≠ 1 := by
  refine ⟨by decide, by decide, by decide⟩

/-- C9 amended: after each batch (including skipped all-empty batches) the
engine reports cumulative progress exactly once; translate_plain_text
reports (min((i+1)*k, n), n) with n the number of non-empty units, while
translate_srt reports (min((i+1)*k, total), total) with total the number of
ALL units of the document, empty ones included. -/
theorem progress_reporting_amended (backend : Nat → List String → TransResult) (k : Nat)
    (lines : List String) (subs : List Subtitle) (hk : 1 ≤ k) :
    ((translate_plain_text backend k lines).1.events).length
        = ((linesToProcess lines).length + k - 1) / k
    ∧ (∀ i, i < ((translate_plain_text backend k lines).1.events).length →
        ((translate_plain_text backend k lines).1.events).get? i
          = some (min ((i + 1) * k) (linesToProcess lines).length,
              (linesToProcess lines).length))
    ∧ ((translate_srt backend k subs).events).length = (subs.length + k - 1) / k
    ∧ (∀ i, i < ((translate_srt backend k subs).events).length →
        ((translate_srt backend k subs).events).get? i
          = some (min ((i + 1) * k) subs.length, subs.length)) := by
  have hpe : (translate_plain_text backend k lines).1.events
      = progEvents 0 (linesToProcess lines).length
          ((chunks k (linesToProcess lines)).map List.length) := by
    simp only [translate_plain_text]
    rw [plainGo_events]
  have hse : (translate_srt backend k subs).events
      = progEvents 0 subs.length ((chunks k subs).map List.length) := by
    simp only [translate_srt]
    rw [srtGo_events]
  refine ⟨?_, ?_, ?_, ?_⟩
  · rw [hpe, progEvents_length, List.length_map, chunks_length k hk]
  · intro i hi
    rw [hpe] at hi ⊢
    rw [progEvents_length] at hi
    exact progEvents_chunks_get? k hk (linesToProcess lines) _ i (by simpa using hi)
  · rw [hse, progEvents_length, List.length_map, chunks_length k hk]
  · intro i hi
    rw [hse] at hi ⊢
    rw [progEvents_length] at hi
    exact progEvents_chunks_get? k hk subs _ i (by simpa using hi)

theorem progress_reporting_amended_witness :
    ((translate_srt (fun _ _ => TransResult.list ["X"]) 2
        [⟨1, 0, 1, " "⟩, ⟨2, 1, 2, "a"⟩, ⟨3, 2, 3, "b"⟩]).events).get? 0 = some (2, 3)
    ∧ ((translate_plain_text (fun _ _ => TransResult.list ["X"]) 2
        ["a", "", "b", "c"]).1.events).get? 1 = some (3, 3) := by
  have h := progress_reporting_amended (fun _ _ => TransResult.list ["X"]) 2
    ["a", "", "b", "c"] [⟨1, 0, 1, " "⟩, ⟨2, 1, 2, "a"⟩, ⟨3, 2, 3, "b"⟩] (by decide)
  constructor
  · have h4 := h.2.2.2 0 (by rw [h.2.2.1]; decide)
    exact h4.trans (by decide)
  · have h2 := h.2.1 1 (by rw [h.1]; decide)
    exact h2.trans (by decide)

end TGemma
